import Mathlib

/-!
Verification of the chain-indexer core: shallow embedding of the transfer
store, the balance-derivation queries, the range planner, the live indexer
watermark discipline, the backfill coordinator and the cache-key builder,
with theorems settling the specification claims.
-/

namespace ChainIndexer

/-- A row of the `transfers` table (`entities.Transfer`).
`value` is stored as `NUMERIC(78)` in PostgreSQL and carried as `*big.Int`
in Go; it is embedded as an unbounded `Int`.  `block_timestamp` is embedded
as an integer instant. -/
structure Transfer where
  txHash : String
  logIndex : Nat
  blockNumber : Int
  blockTimestamp : Int
  tokenAddress : String
  fromAddress : String
  toAddress : String
  value : Int
  deriving Repr, DecidableEq

/-- The transfers table, as the list of its rows in insertion order. -/
abbrev Store := List Transfer

/-- The spec's balance definition: `balance(T,A) = Σ value[T,·→A] − Σ value[T,A→·]`
over all indexed transfers. -/
def specBalance (s : Store) (tok addr : String) : Int :=
  ((s.filter (fun r => decide (r.tokenAddress = tok ∧ r.toAddress = addr))).map
    (fun r => r.value)).sum -
  ((s.filter (fun r => decide (r.tokenAddress = tok ∧ r.fromAddress = addr))).map
    (fun r => r.value)).sum

/-- The balance computed by `GetHolderBalance` (transfer_repo.go): over rows of
the token with `to_address = holder OR from_address = holder`, sum of
`CASE WHEN to_address = holder THEN value WHEN from_address = holder THEN -value ELSE 0 END`.
The first `WHEN` branch wins on a self-transfer. -/
def holderCaseBalance (s : Store) (tok holder : String) : Int :=
  ((s.filter (fun r =>
      decide (r.tokenAddress = tok ∧ (r.toAddress = holder ∨ r.fromAddress = holder)))).map
    (fun r =>
      if r.toAddress = holder then r.value
      else if r.fromAddress = holder then -r.value
      else 0)).sum

/-- The per-token balance computed by `GetWalletHoldings` (portfolio_repo.go):
over rows with `from_address = w OR to_address = w` of the token,
`SUM(CASE WHEN to_address = w THEN value ELSE 0 END) - SUM(CASE WHEN from_address = w THEN value ELSE 0 END)`. -/
def walletHoldingBalance (s : Store) (tok w : String) : Int :=
  ((s.filter (fun r =>
      decide (r.tokenAddress = tok ∧ (r.fromAddress = w ∨ r.toAddress = w)))).map
    (fun r => if r.toAddress = w then r.value else 0)).sum -
  ((s.filter (fun r =>
      decide (r.tokenAddress = tok ∧ (r.fromAddress = w ∨ r.toAddress = w)))).map
    (fun r => if r.fromAddress = w then r.value else 0)).sum

/-- Summing `f` over the rows kept by a decidable filter is summing
`if p then f else 0` over all rows. -/
theorem sum_filter_map {α : Type} (l : List α) (p : α → Prop) [DecidablePred p]
    (f : α → Int) :
    ((l.filter (fun a => decide (p a))).map f).sum
      = (l.map (fun a => if p a then f a else 0)).sum := by
  induction l with
  | nil => rfl
  | cons a t ih =>
    by_cases h : p a <;> simp [List.filter_cons, h, ih]

/-- The wallet-holdings balance coincides with the spec's signed sum for every
store, token and wallet (self-transfers cancel in both). -/
theorem walletHoldingBalance_eq_specBalance (s : Store) (tok w : String) :
    walletHoldingBalance s tok w = specBalance s tok w := by
  unfold walletHoldingBalance specBalance
  rw [sum_filter_map, sum_filter_map, sum_filter_map, sum_filter_map]
  have h1 : ∀ r : Transfer,
      (if r.tokenAddress = tok ∧ (r.fromAddress = w ∨ r.toAddress = w) then
        (if r.toAddress = w then r.value else 0) else 0)
      = (if r.tokenAddress = tok ∧ r.toAddress = w then r.value else 0) := by
    intro r
    by_cases htok : r.tokenAddress = tok <;> by_cases hto : r.toAddress = w <;>
      simp [htok, hto]
  have h2 : ∀ r : Transfer,
      (if r.tokenAddress = tok ∧ (r.fromAddress = w ∨ r.toAddress = w) then
        (if r.fromAddress = w then r.value else 0) else 0)
      = (if r.tokenAddress = tok ∧ r.fromAddress = w then r.value else 0) := by
    intro r
    by_cases htok : r.tokenAddress = tok <;> by_cases hfrom : r.fromAddress = w <;>
      simp [htok, hfrom]
  rw [List.map_congr_left (fun r _ => h1 r), List.map_congr_left (fun r _ => h2 r)]

/-- The conflict key of the unique index `(tx_hash, log_index, block_timestamp)`. -/
def rowKey (t : Transfer) : String × Nat × Int :=
  (t.txHash, t.logIndex, t.blockTimestamp)

/-- Whether some row of the table already carries this conflict key. -/
def hasKey (s : Store) (k : String × Nat × Int) : Bool :=
  s.any (fun r => decide (rowKey r = k))

/-- One `INSERT ... ON CONFLICT (tx_hash, log_index, block_timestamp) DO NOTHING`:
the row is appended unless its key is already present, in which case the
statement is a no-op. -/
def insertRow (s : Store) (t : Transfer) : Store :=
  if hasKey s (rowKey t) then s else s ++ [t]

/-- `BatchInsert` (transfer_repo.go): the rows of the batch are inserted in
order inside one transaction, each with conflict-do-nothing. -/
def BatchInsert (s : Store) (batch : List Transfer) : Store :=
  batch.foldl insertRow s

theorem hasKey_insertRow_mono (s : Store) (t : Transfer) (k : String × Nat × Int)
    (h : hasKey s k = true) : hasKey (insertRow s t) k = true := by
  unfold insertRow
  split
  · exact h
  · unfold hasKey at *
    simp only [List.any_append, Bool.or_eq_true]
    exact Or.inl h

theorem hasKey_insertRow_self (s : Store) (t : Transfer) :
    hasKey (insertRow s t) (rowKey t) = true := by
  unfold insertRow
  split
  · assumption
  · unfold hasKey
    simp

theorem insertRow_of_hasKey (s : Store) (t : Transfer)
    (h : hasKey s (rowKey t) = true) : insertRow s t = s := by
  unfold insertRow
  simp [h]

theorem hasKey_batchInsert_mono (batch : List Transfer) (s : Store)
    (k : String × Nat × Int) (h : hasKey s k = true) :
    hasKey (BatchInsert s batch) k = true := by
  induction batch generalizing s with
  | nil => exact h
  | cons t rest ih => exact ih _ (hasKey_insertRow_mono s t k h)

theorem hasKey_batchInsert_of_mem (batch : List Transfer) (s : Store)
    (t : Transfer) (h : t ∈ batch) :
    hasKey (BatchInsert s batch) (rowKey t) = true := by
  induction batch generalizing s with
  | nil => cases h
  | cons b rest ih =>
    cases h with
    | head =>
      exact hasKey_batchInsert_mono rest _ _ (hasKey_insertRow_self s t)
    | tail _ hmem => exact ih (insertRow s b) hmem

theorem batchInsert_of_all_keys_present (batch : List Transfer) (s : Store)
    (h : ∀ t ∈ batch, hasKey s (rowKey t) = true) :
    BatchInsert s batch = s := by
  induction batch generalizing s with
  | nil => rfl
  | cons t rest ih =>
    unfold BatchInsert
    simp only [List.foldl_cons]
    rw [insertRow_of_hasKey s t (h t (List.mem_cons_self t rest))]
    exact ih s (fun u hu => h u (List.mem_cons_of_mem t hu))

/-- A block range handed to the fetcher (`ethereum.BlockRange`). -/
structure BlockRange where
  first : Int
  last : Int
  deriving Repr, DecidableEq

/-- The loop body of `SplitBlockRange` (Go: `for current := fromBlock; current <= toBlock;
current += int64(batchSize)`), with an explicit fuel bound.  `none` means the fuel ran
out before the loop condition turned false, i.e. the Go loop has not yet terminated
within `fuel` iterations.  One iteration computes
`end = current + batchSize - 1`, caps it at `toBlock`, and appends the range. -/
def splitLoop (batchSize : Int) : Nat → Int → Int → Option (List BlockRange)
  | 0, _, _ => none
  | fuel + 1, current, toBlock =>
    if current ≤ toBlock then
      match splitLoop batchSize fuel (current + batchSize) toBlock with
      | none => none
      | some rest =>
          some (⟨current, min (current + batchSize - 1) toBlock⟩ :: rest)
    else
      some []

/-- `SplitBlockRange` (Go): early `nil` on `fromBlock > toBlock`, then the loop,
run with fuel sufficient for any `batchSize ≥ 1` (for `batchSize ≤ 0` the Go
loop diverges; see the fuel-parametric `splitLoop` for that analysis). -/
def SplitBlockRange (fromBlock toBlock : Int) (batchSize : Int) : List BlockRange :=
  if fromBlock > toBlock then []
  else (splitLoop batchSize ((toBlock - fromBlock + 1).toNat + 1) fromBlock toBlock).getD []

theorem splitLoop_congr (batchSize : Int) (hb : 1 ≤ batchSize) :
    ∀ (fuel₁ fuel₂ : Nat) (current toBlock : Int),
      (toBlock - current + 1).toNat + 1 ≤ fuel₁ →
      (toBlock - current + 1).toNat + 1 ≤ fuel₂ →
      splitLoop batchSize fuel₁ current toBlock
        = splitLoop batchSize fuel₂ current toBlock := by
  intro fuel₁
  induction fuel₁ with
  | zero => intro fuel₂ current toBlock h₁ h₂; omega
  | succ n ih =>
    intro fuel₂ current toBlock h₁ h₂
    obtain ⟨m, rfl⟩ : ∃ m, fuel₂ = m + 1 := ⟨fuel₂ - 1, by omega⟩
    by_cases hle : current ≤ toBlock
    · have hrec : (toBlock - (current + batchSize) + 1).toNat + 1 ≤ n := by omega
      have hrec' : (toBlock - (current + batchSize) + 1).toNat + 1 ≤ m := by omega
      simp only [splitLoop, hle, if_pos]
      rw [ih n (current + batchSize) toBlock hrec hrec,
        ← ih m (current + batchSize) toBlock hrec hrec']
    · simp only [splitLoop, hle]
      rfl

theorem splitLoop_some (batchSize : Int) (hb : 1 ≤ batchSize) :
    ∀ (fuel : Nat) (current toBlock : Int),
      (toBlock - current + 1).toNat + 1 ≤ fuel →
      ∃ l, splitLoop batchSize fuel current toBlock = some l := by
  intro fuel
  induction fuel with
  | zero => intro current toBlock h; omega
  | succ n ih =>
    intro current toBlock h
    by_cases hle : current ≤ toBlock
    · have hrec : (toBlock - (current + batchSize) + 1).toNat + 1 ≤ n := by omega
      obtain ⟨rest, hrest⟩ := ih (current + batchSize) toBlock hrec
      refine ⟨⟨current, min (current + batchSize - 1) toBlock⟩ :: rest, ?_⟩
      simp only [splitLoop, hle, if_pos, hrest]
    · exact ⟨[], by simp only [splitLoop, hle]; rfl⟩

theorem splitLoop_canonical (batchSize : Int) (hb : 1 ≤ batchSize)
    (fromBlock toBlock : Int) :
    splitLoop batchSize ((toBlock - fromBlock + 1).toNat + 1) fromBlock toBlock
      = some (SplitBlockRange fromBlock toBlock batchSize) := by
  by_cases hgt : fromBlock > toBlock
  · have : ¬ fromBlock ≤ toBlock := by omega
    simp only [SplitBlockRange, hgt, if_pos, splitLoop, this]
    rfl
  · obtain ⟨l, hl⟩ := splitLoop_some batchSize hb _ fromBlock toBlock (le_refl _)
    simp only [SplitBlockRange, hgt, if_neg, hl, Option.getD_some, if_false,
      eq_self_iff_true, if_neg (by omega : ¬ fromBlock > toBlock)]

/-- Unfolding equation of `SplitBlockRange` in the nonempty case (`batchSize ≥ 1`):
the first batch is `[from, min (from + batch − 1) to]` and the rest is the split
of `[from + batch, to]`. -/
theorem SplitBlockRange_cons (fromBlock toBlock batchSize : Int) (hb : 1 ≤ batchSize)
    (h : fromBlock ≤ toBlock) :
    SplitBlockRange fromBlock toBlock batchSize
      = ⟨fromBlock, min (fromBlock + batchSize - 1) toBlock⟩ ::
          SplitBlockRange (fromBlock + batchSize) toBlock batchSize := by
  have hgt : ¬ fromBlock > toBlock := by omega
  have hcan : splitLoop batchSize ((toBlock - fromBlock + 1).toNat)
      (fromBlock + batchSize) toBlock
      = some (SplitBlockRange (fromBlock + batchSize) toBlock batchSize) := by
    rw [splitLoop_congr batchSize hb _ ((toBlock - (fromBlock + batchSize) + 1).toNat + 1)
      (fromBlock + batchSize) toBlock (by omega) (le_refl _)]
    exact splitLoop_canonical batchSize hb (fromBlock + batchSize) toBlock
  simp only [SplitBlockRange, hgt, if_neg, splitLoop, h, if_pos, hcan]
  rfl

/-- `SplitBlockRange` is empty exactly when `fromBlock > toBlock` (`batchSize ≥ 1`). -/
theorem SplitBlockRange_nil (fromBlock toBlock batchSize : Int) (h : fromBlock > toBlock) :
    SplitBlockRange fromBlock toBlock batchSize = [] := by
  simp only [SplitBlockRange, h, if_pos]

/-- Every produced batch lies inside `[fromBlock, toBlock]`, is nonempty, and
spans at most `batchSize` blocks. -/
theorem mem_SplitBlockRange (fromBlock toBlock batchSize : Int) (hb : 1 ≤ batchSize) :
    ∀ r ∈ SplitBlockRange fromBlock toBlock batchSize,
      fromBlock ≤ r.first ∧ r.first ≤ r.last ∧ r.last ≤ toBlock ∧
        r.last - r.first + 1 ≤ batchSize := by
  intro r hr
  by_cases h : fromBlock ≤ toBlock
  · rw [SplitBlockRange_cons fromBlock toBlock batchSize hb h] at hr
    rcases List.mem_cons.mp hr with hhead | htail
    · subst hhead
      refine ⟨le_refl _, ?_, ?_, ?_⟩ <;> simp only [le_min_iff, min_le_iff] <;> omega
    · have ih := mem_SplitBlockRange (fromBlock + batchSize) toBlock batchSize hb r htail
      exact ⟨by omega, ih.2.1, ih.2.2.1, ih.2.2.2⟩
  · rw [SplitBlockRange_nil fromBlock toBlock batchSize (by omega)] at hr
    cases hr
termination_by (toBlock - fromBlock + 1).toNat
decreasing_by omega

/-- Consecutive batches are contiguous: each batch starts one block after the
previous one ends (so batches are non-overlapping and in ascending order). -/
theorem chain_SplitBlockRange (fromBlock toBlock batchSize : Int) (hb : 1 ≤ batchSize) :
    (SplitBlockRange fromBlock toBlock batchSize).Chain'
      (fun a b => b.first = a.last + 1) := by
  by_cases h : fromBlock ≤ toBlock
  · rw [SplitBlockRange_cons fromBlock toBlock batchSize hb h]
    rw [List.chain'_cons']
    constructor
    · intro b hb'
      by_cases h2 : fromBlock + batchSize ≤ toBlock
      · rw [SplitBlockRange_cons (fromBlock + batchSize) toBlock batchSize hb h2] at hb'
        simp only [List.head?_cons, Option.mem_def, Option.some_inj] at hb'
        subst hb'
        simp only
        omega
      · rw [SplitBlockRange_nil (fromBlock + batchSize) toBlock batchSize (by omega)] at hb'
        cases hb'
    · exact chain_SplitBlockRange (fromBlock + batchSize) toBlock batchSize hb
  · rw [SplitBlockRange_nil fromBlock toBlock batchSize (by omega)]
    exact List.chain'_nil
termination_by (toBlock - fromBlock + 1).toNat
decreasing_by omega

/-- In the nonempty case the first batch starts at `fromBlock`. -/
theorem head_SplitBlockRange (fromBlock toBlock batchSize : Int) (hb : 1 ≤ batchSize)
    (h : fromBlock ≤ toBlock) :
    (SplitBlockRange fromBlock toBlock batchSize).head?
      = some ⟨fromBlock, min (fromBlock + batchSize - 1) toBlock⟩ := by
  rw [SplitBlockRange_cons fromBlock toBlock batchSize hb h]
  rfl

/-- In the nonempty case the last batch ends exactly at `toBlock`. -/
theorem getLast_SplitBlockRange (fromBlock toBlock batchSize : Int) (hb : 1 ≤ batchSize)
    (h : fromBlock ≤ toBlock) :
    ∃ r, (SplitBlockRange fromBlock toBlock batchSize).getLast? = some r ∧
      r.last = toBlock := by
  rw [SplitBlockRange_cons fromBlock toBlock batchSize hb h]
  by_cases h2 : fromBlock + batchSize ≤ toBlock
  · obtain ⟨r, hr, hlast⟩ :=
      getLast_SplitBlockRange (fromBlock + batchSize) toBlock batchSize hb h2
    refine ⟨r, ?_, hlast⟩
    exact Option.mem_def.mp (List.mem_getLast?_cons (Option.mem_def.mpr hr))
  · rw [SplitBlockRange_nil (fromBlock + batchSize) toBlock batchSize (by omega)]
    exact ⟨⟨fromBlock, min (fromBlock + batchSize - 1) toBlock⟩, rfl, by
      simp only
      omega⟩
termination_by (toBlock - fromBlock + 1).toNat
decreasing_by omega

/-- Every batch except (possibly) the last spans exactly `batchSize` blocks. -/
theorem dropLast_SplitBlockRange (fromBlock toBlock batchSize : Int) (hb : 1 ≤ batchSize) :
    ∀ r ∈ (SplitBlockRange fromBlock toBlock batchSize).dropLast,
      r.last - r.first + 1 = batchSize := by
  intro r hr
  by_cases h : fromBlock ≤ toBlock
  · rw [SplitBlockRange_cons fromBlock toBlock batchSize hb h] at hr
    by_cases h2 : fromBlock + batchSize ≤ toBlock
    · rw [SplitBlockRange_cons (fromBlock + batchSize) toBlock batchSize hb h2] at hr
      rw [List.dropLast_cons₂] at hr
      rcases List.mem_cons.mp hr with hhead | htail
      · subst hhead
        simp only
        omega
      · have ih := dropLast_SplitBlockRange (fromBlock + batchSize) toBlock batchSize hb r
        rw [SplitBlockRange_cons (fromBlock + batchSize) toBlock batchSize hb h2] at ih
        exact ih htail
    · rw [SplitBlockRange_nil (fromBlock + batchSize) toBlock batchSize (by omega)] at hr
      simp at hr
  · rw [SplitBlockRange_nil fromBlock toBlock batchSize (by omega)] at hr
    simp at hr
termination_by (toBlock - fromBlock + 1).toNat
decreasing_by omega

/-! ### Live indexer watermark (indexTokenTransfers + UpdateLastBlock)

`indexTokenTransfers(token, safeTip)` reads `last_indexed_block`, sets
`from = last + 1`, returns at once if `from > safeTip`, otherwise splits
`[from, safeTip]` with `SplitBlockRange` and processes the ranges in order,
calling `UpdateLastBlock(token, r.To)` after each persisted range.  A tick may
stop early (fetch/insert error, cancellation), having processed only a prefix
of its ranges.  `UpdateLastBlock` overwrites `last_indexed_block` with the
given value unconditionally. -/

/-- The watermark after one tick of the live loop for a token, where the tick
observed safe tip `safeTip` and completed the first `k` of its ranges before
stopping (`k` larger than the number of ranges means the tick ran to the end). -/
def tickWatermark (batchSize : Int) (last safeTip : Int) (k : Nat) : Int :=
  if last + 1 > safeTip then last
  else
    match ((SplitBlockRange (last + 1) safeTip batchSize).take k).getLast? with
    | none => last
    | some r => r.last

/-- The watermark after a sequence of live ticks, each given by the safe tip it
observed and the number of ranges it completed. -/
def runTicks (batchSize : Int) (last : Int) : List (Int × Nat) → Int
  | [] => last
  | (tip, k) :: rest => runTicks batchSize (tickWatermark batchSize last tip k) rest

theorem le_tickWatermark (batchSize : Int) (hb : 1 ≤ batchSize)
    (last safeTip : Int) (k : Nat) :
    last ≤ tickWatermark batchSize last safeTip k := by
  unfold tickWatermark
  split
  · exact le_refl _
  · rename_i hle
    cases hr : ((SplitBlockRange (last + 1) safeTip batchSize).take k).getLast? with
    | none => exact le_refl _
    | some r =>
      have hmem : r ∈ (SplitBlockRange (last + 1) safeTip batchSize).take k :=
        List.mem_of_mem_getLast? (Option.mem_def.mpr hr)
      have hmem' : r ∈ SplitBlockRange (last + 1) safeTip batchSize :=
        List.mem_of_mem_take hmem
      have hb' := mem_SplitBlockRange (last + 1) safeTip batchSize hb r hmem'
      show last ≤ r.last
      omega

theorem le_runTicks (batchSize : Int) (hb : 1 ≤ batchSize) :
    ∀ (ticks : List (Int × Nat)) (last : Int), last ≤ runTicks batchSize last ticks := by
  intro ticks
  induction ticks with
  | nil => intro last; exact le_refl _
  | cons t rest ih =>
    intro last
    calc last ≤ tickWatermark batchSize last t.1 t.2 :=
          le_tickWatermark batchSize hb last t.1 t.2
      _ ≤ runTicks batchSize (tickWatermark batchSize last t.1 t.2) rest := ih _
      _ = runTicks batchSize last (t :: rest) := rfl

/-! ### Indexer state row and the backfill coordinator -/

/-- A row of `indexer_state` (`entities.IndexerState`). -/
structure IndexerState where
  tokenAddress : String
  lastIndexedBlock : Int
  isBackfilling : Bool
  backfillFromBlock : Option Int
  backfillToBlock : Option Int
  deriving Repr, DecidableEq

/-- `SetBackfilling` (indexer_state_repo.go): updates only `is_backfilling`,
`backfill_from_block` and `backfill_to_block` of the token's row. -/
def SetBackfilling (st : IndexerState) (flag : Bool) (fromB toB : Option Int) :
    IndexerState :=
  { st with isBackfilling := flag, backfillFromBlock := fromB, backfillToBlock := toB }

/-- The state a backfill run touches: the transfers table plus the token's
`indexer_state` row. -/
structure BackfillView where
  transfers : Store
  idx : IndexerState
  deriving Repr, DecidableEq

/-- `Backfill(token, fromBlock, toBlock)` (indexer service): sets the
backfilling flag with the window, then for each range in order fetches and
batch-inserts the fetched transfers.  `fetched` lists the transfer batches the
fetcher returned per range, and `completed` is how many ranges finished before
the run exited (error, cancellation, or all of them on success).  The deferred
`SetBackfilling(token, false, nil, nil)` runs on every exit path.  No call of
this function updates `last_indexed_block`. -/
def BackfillRun (v : BackfillView) (fromBlock toBlock : Int)
    (fetched : List (List Transfer)) (completed : Nat) : BackfillView :=
  let v₁ : BackfillView :=
    { v with idx := SetBackfilling v.idx true (some fromBlock) (some toBlock) }
  let v₂ : BackfillView :=
    { v₁ with transfers := (fetched.take completed).foldl BatchInsert v₁.transfers }
  { v₂ with idx := SetBackfilling v₂.idx false none none }

/-! ### Holder balances and rankings (GetTopHolders / GetHolderBalance)

`GetTopHolders` builds a `balances` CTE: a `UNION ALL` of `(to_address, value)`
and `(from_address, -value)` rows of the token, grouped by address, keeping
groups with `SUM(amount) > 0`.  The outer query is

`SELECT address, balance::TEXT as balance,
  ROW_NUMBER() OVER (ORDER BY balance DESC)::INTEGER as rank
 FROM balances ORDER BY balance DESC LIMIT $2`.

Two distinct orders are in play.  Inside the window clause, output aliases are
not visible, so `balance` resolves to the CTE's numeric column: ranks follow
the numeric descending order (ties in any order — there is no tie break).  In
the outer `ORDER BY`, PostgreSQL resolves a plain name to the output column
first, here the `TEXT` alias: rows are emitted in descending lexicographic
order of the decimal rendering of their balances (again ties in any order),
decoupled from the rank column, and `LIMIT` cuts that text order.  The
embedding quantifies over both tie choices independently. -/

/-- The rows of the `UNION ALL` subquery of the `balances` CTE. -/
def unionRows (s : Store) (tok : String) : List (String × Int) :=
  ((s.filter (fun r => decide (r.tokenAddress = tok))).map
    (fun r => (r.toAddress, r.value))) ++
  ((s.filter (fun r => decide (r.tokenAddress = tok))).map
    (fun r => (r.fromAddress, -r.value)))

/-- `SUM(amount)` of the group of `addr` (`GROUP BY address`). -/
def groupSum (rows : List (String × Int)) (addr : String) : Int :=
  ((rows.filter (fun p => decide (p.1 = addr))).map (fun p => p.2)).sum

/-- The distinct addresses the `GROUP BY` produces, in first-occurrence order. -/
def groupAddrs (rows : List (String × Int)) : List String :=
  (rows.map (fun p => p.1)).dedup

/-- The addresses surviving `HAVING SUM(amount) > 0`: the positive-balance
holders of the token. -/
def positiveHolders (s : Store) (tok : String) : List String :=
  (groupAddrs (unionRows s tok)).filter
    (fun a => decide (0 < groupSum (unionRows s tok) a))

/-- The balance the `balances` CTE assigns to an address. -/
def holderUnionBalance (s : Store) (tok addr : String) : Int :=
  groupSum (unionRows s tok) addr

/-- One output row of the holder queries (`repositories.HolderBalance`). -/
structure HolderRow where
  address : String
  balance : Int
  rank : Nat
  deriving Repr, DecidableEq

/-- Attach balances and consecutive ranks starting at `k` to a list of
addresses (the `ROW_NUMBER()` column along the chosen order). -/
def rankFrom (bal : String → Int) (k : Nat) : List String → List HolderRow
  | [] => []
  | a :: rest => ⟨a, bal a, k⟩ :: rankFrom bal (k + 1) rest

/-- The results `GetTopHolders(token, limit)` may return.  `permRank` is the
window's enumeration of the positive holders — numeric balance descending,
ties in any order — and `ROW_NUMBER()` attaches ranks along it (`rankFrom`).
`outRows` re-sorts those ranked rows by the outer `ORDER BY balance DESC`,
which binds to the `TEXT` output alias: descending lexicographic order of the
decimal rendering (`toString`, which for the positive balances involved is
exactly `NUMERIC::TEXT`), ties again in any order.  `LIMIT` then cuts that
text order. -/
def ValidTopHolders (s : Store) (tok : String) (limit : Nat)
    (res : List HolderRow) : Prop :=
  ∃ permRank : List String, ∃ outRows : List HolderRow,
    permRank.Perm (positiveHolders s tok) ∧
    permRank.Pairwise (fun a b =>
      holderUnionBalance s tok b ≤ holderUnionBalance s tok a) ∧
    outRows.Perm (rankFrom (holderUnionBalance s tok) 1 permRank) ∧
    outRows.Pairwise (fun x y =>
      ¬ ((toString x.balance).data < (toString y.balance).data)) ∧
    res = outRows.take limit

/-- The rank `GetHolderBalance` computes: `COUNT(*) + 1` over the positive
holders whose CTE balance strictly exceeds the holder's `CASE`-based balance. -/
def getHolderRank (s : Store) (tok holder : String) : Nat :=
  1 + ((positiveHolders s tok).filter
    (fun a => decide (holderCaseBalance s tok holder < holderUnionBalance s tok a))).length

theorem rankFrom_map_rank (bal : String → Int) :
    ∀ (l : List String) (k : Nat),
      (rankFrom bal k l).map (fun h => h.rank) = List.range' k l.length := by
  intro l
  induction l with
  | nil => intro k; rfl
  | cons a rest ih =>
    intro k
    simp only [rankFrom, List.map_cons, List.length_cons, List.range'_succ, ih]

theorem rankFrom_length (bal : String → Int) :
    ∀ (l : List String) (k : Nat), (rankFrom bal k l).length = l.length := by
  intro l
  induction l with
  | nil => intro k; rfl
  | cons a rest ih => intro k; simp only [rankFrom, List.length_cons, ih]

theorem rankFrom_map_balance (bal : String → Int) :
    ∀ (l : List String) (k : Nat),
      (rankFrom bal k l).map (fun h => h.balance) = l.map bal := by
  intro l
  induction l with
  | nil => intro k; rfl
  | cons a rest ih => intro k; simp only [rankFrom, List.map_cons, ih]

theorem rankFrom_map_address (bal : String → Int) :
    ∀ (l : List String) (k : Nat),
      (rankFrom bal k l).map (fun h => h.address) = l := by
  intro l
  induction l with
  | nil => intro k; rfl
  | cons a rest ih => intro k; simp only [rankFrom, List.map_cons, ih]

theorem rankFrom_mem (bal : String → Int) :
    ∀ (l : List String) (k : Nat) (h : HolderRow), h ∈ rankFrom bal k l →
      h.balance = bal h.address ∧ h.address ∈ l := by
  intro l
  induction l with
  | nil => intro k h hmem; cases hmem
  | cons a rest ih =>
    intro k h hmem
    rcases List.mem_cons.mp hmem with rfl | hmem'
    · exact ⟨rfl, List.mem_cons_self a rest⟩
    · have := ih (k + 1) h hmem'
      exact ⟨this.1, List.mem_cons_of_mem a this.2⟩

theorem positiveHolders_pos (s : Store) (tok a : String)
    (h : a ∈ positiveHolders s tok) : 0 < holderUnionBalance s tok a := by
  unfold positiveHolders at h
  have := List.of_mem_filter h
  exact of_decide_eq_true this

/-- In a balance-descending enumeration with pairwise-distinct balances, the
entry of address `a` carries rank `k` plus the number of addresses of strictly
greater balance. -/
theorem rankFrom_mem_of_sorted (bal : String → Int) :
    ∀ (l : List String) (k : Nat),
      l.Pairwise (fun a b => bal b ≤ bal a) →
      l.Pairwise (fun a b => bal a ≠ bal b) →
      ∀ a ∈ l,
        (⟨a, bal a, k + (l.filter (fun x => decide (bal a < bal x))).length⟩ : HolderRow)
          ∈ rankFrom bal k l := by
  intro l
  induction l with
  | nil => intro k _ _ a ha; cases ha
  | cons x rest ih =>
    intro k hsorted hdist a ha
    have hsorted_head := (List.pairwise_cons.mp hsorted).1
    have hsorted_rest := (List.pairwise_cons.mp hsorted).2
    have hdist_head := (List.pairwise_cons.mp hdist).1
    have hdist_rest := (List.pairwise_cons.mp hdist).2
    rcases List.mem_cons.mp ha with rfl | hmem
    · have hfilter : (a :: rest).filter (fun x => decide (bal a < bal x)) = [] := by
        rw [List.filter_eq_nil_iff]
        intro b hbmem
        rcases List.mem_cons.mp hbmem with rfl | hbmem'
        · simp
        · have := hsorted_head b hbmem'
          simp only [decide_eq_true_eq]
          omega
      rw [hfilter]
      exact List.mem_cons_self _ _
    · have hxa : bal a < bal x := by
        have h1 := hsorted_head a hmem
        have h2 := hdist_head a hmem
        omega
      have hfilter : (x :: rest).filter (fun y => decide (bal a < bal y))
          = x :: rest.filter (fun y => decide (bal a < bal y)) := by
        rw [List.filter_cons]
        simp [hxa]
      rw [hfilter]
      have := ih (k + 1) hsorted_rest hdist_rest a hmem
      simp only [List.length_cons, rankFrom]
      refine List.mem_cons_of_mem _ ?_
      have harith : k + ((rest.filter (fun y => decide (bal a < bal y))).length + 1)
          = (k + 1) + (rest.filter (fun y => decide (bal a < bal y))).length := by omega
      rw [harith]
      exact this

/-! ### Filtered transfer reads and pagination (GetByFilter / GetCount / GetTransfers) -/

/-- `entities.TransferFilter`.  `fromTime`/`toTime` are embedded as integer
instants; `limit` and `offset` keep Go's signed-integer type. -/
structure TransferFilter where
  tokenAddress : Option String := none
  fromAddress : Option String := none
  toAddress : Option String := none
  address : Option String := none
  fromBlock : Option Int := none
  toBlock : Option Int := none
  fromTime : Option Int := none
  toTime : Option Int := none
  limit : Int := 100
  offset : Int := 0
  deriving Repr, DecidableEq

/-- The `WHERE` clause `buildFilterQuery` assembles: one conjunct per present
filter field; `address` matches `from_address = v OR to_address = v`. -/
def matchesFilter (f : TransferFilter) (r : Transfer) : Bool :=
  (match f.tokenAddress with | none => true | some v => decide (r.tokenAddress = v)) &&
  (match f.fromAddress with | none => true | some v => decide (r.fromAddress = v)) &&
  (match f.toAddress with | none => true | some v => decide (r.toAddress = v)) &&
  (match f.address with
    | none => true
    | some v => decide (r.fromAddress = v ∨ r.toAddress = v)) &&
  (match f.fromBlock with | none => true | some v => decide (v ≤ r.blockNumber)) &&
  (match f.toBlock with | none => true | some v => decide (r.blockNumber ≤ v)) &&
  (match f.fromTime with | none => true | some v => decide (v ≤ r.blockTimestamp)) &&
  (match f.toTime with | none => true | some v => decide (r.blockTimestamp ≤ v))

/-- `ORDER BY block_timestamp DESC, log_index DESC` as a sort precondition. -/
def transferLe (a b : Transfer) : Bool :=
  decide (b.blockTimestamp < a.blockTimestamp ∨
    (a.blockTimestamp = b.blockTimestamp ∧ b.logIndex ≤ a.logIndex))

/-- `GetByFilter` (transfer_repo.go): the matching rows, ordered, with
`OFFSET` then `LIMIT` applied. -/
def GetByFilter (s : Store) (f : TransferFilter) : List Transfer :=
  (((s.filter (matchesFilter f)).mergeSort transferLe).drop f.offset.toNat).take
    f.limit.toNat

/-- `GetCount` (transfer_repo.go): `SELECT COUNT(*)` under the same `WHERE`. -/
def GetCount (s : Store) (f : TransferFilter) : Int :=
  ((s.filter (matchesFilter f)).length : Int)

/-- The `has_more` field `GetTransfers` (transfer_service.go) computes:
`int64(filter.Offset + len(transfers)) < total`. -/
def getTransfersHasMore (s : Store) (f : TransferFilter) : Bool :=
  decide (f.offset + ((GetByFilter s f).length : Int) < GetCount s f)

/-! ### The transfer-list cache fingerprint (generateCacheKey)

`generateCacheKey` (transfer_service.go) joins the parts below with `|` and
returns `"transfers:" ++ hex(sha256(joined)[0:8])`.  The embedding is the
joined pre-image; SHA-256 is a function, so equal pre-images always yield
equal cache keys.  `FromTime` and `ToTime` are not appended by the Go code. -/
def generateCacheKey (f : TransferFilter) : String :=
  let parts : List String :=
    (match f.tokenAddress with | none => [] | some v => ["token:" ++ v]) ++
    (match f.fromAddress with | none => [] | some v => ["from:" ++ v]) ++
    (match f.toAddress with | none => [] | some v => ["to:" ++ v]) ++
    (match f.address with | none => [] | some v => ["addr:" ++ v]) ++
    (match f.fromBlock with | none => [] | some v => ["fb:" ++ toString v]) ++
    (match f.toBlock with | none => [] | some v => ["tb:" ++ toString v]) ++
    ["l:" ++ toString f.limit ++ ":o:" ++ toString f.offset]
  String.intercalate "|" parts

/-! ### Relating the three balance computations -/

theorem sum_map_add {α : Type} (l : List α) (f g : α → Int) :
    (l.map (fun a => f a + g a)).sum = (l.map f).sum + (l.map g).sum := by
  induction l with
  | nil => rfl
  | cons a t ih => simp only [List.map_cons, List.sum_cons, ih]; omega

theorem sum_map_sub {α : Type} (l : List α) (f g : α → Int) :
    (l.map (fun a => f a - g a)).sum = (l.map f).sum - (l.map g).sum := by
  induction l with
  | nil => rfl
  | cons a t ih => simp only [List.map_cons, List.sum_cons, ih]; omega

theorem groupSum_cons (p : String × Int) (rows : List (String × Int)) (a : String) :
    groupSum (p :: rows) a = (if p.1 = a then p.2 else 0) + groupSum rows a := by
  unfold groupSum
  rw [List.filter_cons]
  by_cases h : p.1 = a <;> simp [h]

theorem groupSum_append (rows₁ rows₂ : List (String × Int)) (a : String) :
    groupSum (rows₁ ++ rows₂) a = groupSum rows₁ a + groupSum rows₂ a := by
  unfold groupSum
  rw [List.filter_append, List.map_append, List.sum_append]

theorem groupSum_map (l : List Transfer) (f : Transfer → String) (g : Transfer → Int)
    (a : String) :
    groupSum (l.map (fun r => (f r, g r))) a
      = (l.map (fun r => if f r = a then g r else 0)).sum := by
  induction l with
  | nil => rfl
  | cons r t ih =>
    rw [List.map_cons, groupSum_cons, List.map_cons, List.sum_cons, ih]

/-- The `UNION ALL` balance of the `balances` CTE is the spec's signed sum. -/
theorem holderUnionBalance_eq_specBalance (s : Store) (tok a : String) :
    holderUnionBalance s tok a = specBalance s tok a := by
  unfold holderUnionBalance unionRows
  rw [groupSum_append, groupSum_map, groupSum_map]
  rw [sum_filter_map s (fun r => r.tokenAddress = tok)
    (fun r => if r.toAddress = a then r.value else 0)]
  rw [sum_filter_map s (fun r => r.tokenAddress = tok)
    (fun r => if r.fromAddress = a then -r.value else 0)]
  rw [← sum_map_add]
  unfold specBalance
  rw [sum_filter_map s _ (fun r => r.value), sum_filter_map s _ (fun r => r.value),
    ← sum_map_sub]
  refine congrArg List.sum (List.map_congr_left ?_)
  intro r _
  by_cases htok : r.tokenAddress = tok <;>
    by_cases hto : r.toAddress = a <;>
    by_cases hfrom : r.fromAddress = a <;>
    simp [htok, hto, hfrom]

/-- For a holder with no self-transfer rows in the token, the `CASE`-based
balance of `GetHolderBalance` agrees with the spec's signed sum. -/
theorem holderCaseBalance_eq_specBalance_of_no_self (s : Store) (tok h : String)
    (hself : ∀ r ∈ s, r.tokenAddress = tok →
      ¬(r.fromAddress = h ∧ r.toAddress = h)) :
    holderCaseBalance s tok h = specBalance s tok h := by
  unfold holderCaseBalance
  rw [sum_filter_map s (fun r => r.tokenAddress = tok ∧ (r.toAddress = h ∨ r.fromAddress = h))
    (fun r => if r.toAddress = h then r.value
      else if r.fromAddress = h then -r.value else 0)]
  unfold specBalance
  rw [sum_filter_map s _ (fun r => r.value), sum_filter_map s _ (fun r => r.value),
    ← sum_map_sub]
  refine congrArg List.sum (List.map_congr_left ?_)
  intro r hr
  by_cases htok : r.tokenAddress = tok
  · by_cases hto : r.toAddress = h
    · by_cases hfrom : r.fromAddress = h
      · exact absurd ⟨hfrom, hto⟩ (hself r hr htok)
      · simp [htok, hto, hfrom]
    · by_cases hfrom : r.fromAddress = h
      · simp [htok, hto, hfrom]
      · simp [htok, hto, hfrom]
  · simp [htok]

/-! ### Concrete stores and results used by counterexamples and witnesses -/

/-- A store holding a single self-transfer: token `0xtoken`, `0xalice → 0xalice`,
value 5. -/
def selfTransferEx : Store :=
  [⟨"0xhash1", 0, 100, 1000, "0xtoken", "0xalice", "0xalice", 5⟩]

/-- A store where `0xb` and `0xc` hold equal balances of token `0xtok`
(10 each, funded by `0xf`). -/
def tieStore : Store :=
  [⟨"0xh1", 0, 1, 10, "0xtok", "0xf", "0xb", 10⟩,
   ⟨"0xh2", 1, 1, 11, "0xtok", "0xf", "0xc", 10⟩]

/-- A tie-ordered output of `GetTopHolders` on `tieStore` listing `0xc` first. -/
def tieResCB : List HolderRow := [⟨"0xc", 10, 1⟩, ⟨"0xb", 10, 2⟩]

/-- The other tie-ordered output of `GetTopHolders` on `tieStore`. -/
def tieResBC : List HolderRow := [⟨"0xb", 10, 1⟩, ⟨"0xc", 10, 2⟩]

/-- A store where `0xb` (balance 10) and `0xc` (balance 7) hold distinct
balances of token `0xtok`. -/
def distinctStore : Store :=
  [⟨"0xh1", 0, 1, 10, "0xtok", "0xf", "0xb", 10⟩,
   ⟨"0xh2", 1, 1, 11, "0xtok", "0xf", "0xc", 7⟩]

/-- The `GetTopHolders` output on `distinctStore`: the window ranks `0xb`
(numeric balance 10) first, but the outer text order emits `"7"` before
`"10"`, so the row with rank 2 is listed before the row with rank 1. -/
def textOrderRes : List HolderRow := [⟨"0xc", 7, 2⟩, ⟨"0xb", 10, 1⟩]

/-- The ordering the spec claims for the top-holders listing: balance
descending, ties broken by address ascending. -/
def tieBreakOrdered (res : List HolderRow) : Prop :=
  res.Pairwise (fun x y =>
    y.balance < x.balance ∨ (x.balance = y.balance ∧ x.address < y.address))

/-- A filter selecting token `0xtoken` from time 100, defaults elsewhere. -/
def cacheKeyF1 : TransferFilter := { tokenAddress := some "0xtoken", fromTime := some 100 }

/-- The same filter with from-time 200 instead of 100. -/
def cacheKeyF2 : TransferFilter := { tokenAddress := some "0xtoken", fromTime := some 200 }

/-- A three-row store for the pagination witness. -/
def pageStore : Store :=
  [⟨"0xh1", 0, 1, 10, "0xtok", "0xa", "0xb", 1⟩,
   ⟨"0xh2", 1, 1, 11, "0xtok", "0xa", "0xb", 2⟩,
   ⟨"0xh3", 2, 2, 12, "0xtok", "0xa", "0xb", 3⟩]

/-- A page request of size 2 at offset 0. -/
def pageFilter : TransferFilter := { tokenAddress := some "0xtok", limit := 2, offset := 0 }

/-! ### The claims -/

/-- C1: the claim states that the holder-balance query returns exactly the
signed sum `Σ value[T,·→A] − Σ value[T,A→·]`.  The code diverges: on a
self-transfer (`from_address = to_address = A`) the `CASE` in
`GetHolderBalance` takes the `to_address` branch and adds `value` once,
whereas the signed sum cancels it to 0.  At the one-row store
`selfTransferEx` (a self-transfer of value 5) the query returns 5 while the
claimed signed sum is 0; the wallet-holdings query, by contrast, does
implement the signed sum. -/
theorem claim_C1_holder_balance_self_transfer :
    holderCaseBalance selfTransferEx "0xtoken" "0xalice" = 5 ∧
    specBalance selfTransferEx "0xtoken" "0xalice" = 0 ∧
    holderCaseBalance selfTransferEx "0xtoken" "0xalice"
      ≠ specBalance selfTransferEx "0xtoken" "0xalice" ∧
    walletHoldingBalance selfTransferEx "0xtoken" "0xalice"
      = specBalance selfTransferEx "0xtoken" "0xalice" := by
  refine ⟨by decide, by decide, by decide, ?_⟩
  exact walletHoldingBalance_eq_specBalance selfTransferEx "0xtoken" "0xalice"

/-- C2: applying `BatchInsert` with the same batch a second time leaves the
transfers table identical — every row of the batch already has its
`(tx_hash, log_index, block_timestamp)` key present after the first
application, so every insert of the second call hits the conflict clause and
is dropped. -/
theorem claim_C2_batch_insert_idempotent (s : Store) (batch : List Transfer) :
    BatchInsert (BatchInsert s batch) batch = BatchInsert s batch ∧
    (BatchInsert (BatchInsert s batch) batch).length = (BatchInsert s batch).length := by
  have h := batchInsert_of_all_keys_present batch (BatchInsert s batch)
    (fun t ht => hasKey_batchInsert_of_mem batch s t ht)
  exact ⟨h, by rw [h]⟩

/-- C3: along any execution of the live indexer — any sequence of ticks, each
observing some safe tip and completing a prefix of its ranges in order, with
`UpdateLastBlock(r.To)` after each persisted range — the stored
`last_indexed_block` never decreases: the value read after further ticks is
always ≥ the value read earlier. -/
theorem claim_C3_watermark_monotone (batchSize : Int) (hb : 1 ≤ batchSize)
    (start : Int) (ticks₁ ticks₂ : List (Int × Nat)) :
    runTicks batchSize start ticks₁
      ≤ runTicks batchSize (runTicks batchSize start ticks₁) ticks₂ :=
  le_runTicks batchSize hb ticks₂ (runTicks batchSize start ticks₁)

/-- Witness for C3 at `batchSize = 5`, start 0, a first tick reaching tip 12
and a later tick reaching tip 20. -/
theorem claim_C3_watermark_monotone_witness :
    runTicks 5 0 [(12, 10)] ≤ runTicks 5 (runTicks 5 0 [(12, 10)]) [(20, 3)] :=
  claim_C3_watermark_monotone 5 (by decide) 0 [(12, 10)] [(20, 3)]

/-- C6: a backfill run over any window and any outcome (success, error or
cancellation after any number of completed batches) leaves the token's
`last_indexed_block` exactly as it was, and always exits with
`is_backfilling = false` and both backfill window fields cleared. -/
theorem claim_C6_backfill_frame (v : BackfillView) (fromBlock toBlock : Int)
    (fetched : List (List Transfer)) (completed : Nat) :
    (BackfillRun v fromBlock toBlock fetched completed).idx.lastIndexedBlock
        = v.idx.lastIndexedBlock ∧
    (BackfillRun v fromBlock toBlock fetched completed).idx.isBackfilling = false ∧
    (BackfillRun v fromBlock toBlock fetched completed).idx.backfillFromBlock = none ∧
    (BackfillRun v fromBlock toBlock fetched completed).idx.backfillToBlock = none :=
  ⟨rfl, rfl, rfl, rfl⟩

/-- C7: for `batchSize ≥ 1`, `SplitBlockRange` realises the spec's formula —
empty when `from > to`; otherwise the head batch is
`[from, min (from + batch − 1) to]` and the tail is the split of
`[from + batch, to]`; batches are contiguous (each starts one past the
previous end, hence non-overlapping and ascending), stay inside `[from, to]`,
span exactly `batchSize` blocks except possibly the last, the first starts at
`from` and the last ends at `to`; and the two boundary examples
`split([x,x],100) = [[x,x]]`, `split([10,5],100) = []` hold. -/
theorem claim_C7_split_block_range (fromBlock toBlock batchSize : Int)
    (hb : 1 ≤ batchSize) :
    (fromBlock > toBlock → SplitBlockRange fromBlock toBlock batchSize = []) ∧
    (fromBlock ≤ toBlock → SplitBlockRange fromBlock toBlock batchSize
        = ⟨fromBlock, min (fromBlock + batchSize - 1) toBlock⟩ ::
            SplitBlockRange (fromBlock + batchSize) toBlock batchSize) ∧
    (SplitBlockRange fromBlock toBlock batchSize).Chain'
        (fun a b => b.first = a.last + 1) ∧
    (∀ r ∈ SplitBlockRange fromBlock toBlock batchSize,
        fromBlock ≤ r.first ∧ r.first ≤ r.last ∧ r.last ≤ toBlock ∧
          r.last - r.first + 1 ≤ batchSize) ∧
    (fromBlock ≤ toBlock → (SplitBlockRange fromBlock toBlock batchSize).head?
        = some ⟨fromBlock, min (fromBlock + batchSize - 1) toBlock⟩) ∧
    (fromBlock ≤ toBlock → ∃ r,
        (SplitBlockRange fromBlock toBlock batchSize).getLast? = some r ∧
          r.last = toBlock) ∧
    (∀ r ∈ (SplitBlockRange fromBlock toBlock batchSize).dropLast,
        r.last - r.first + 1 = batchSize) ∧
    (∀ x : Int, SplitBlockRange x x 100 = [⟨x, x⟩]) ∧
    SplitBlockRange 10 5 100 = [] := by
  refine ⟨SplitBlockRange_nil fromBlock toBlock batchSize,
    SplitBlockRange_cons fromBlock toBlock batchSize hb,
    chain_SplitBlockRange fromBlock toBlock batchSize hb,
    mem_SplitBlockRange fromBlock toBlock batchSize hb,
    head_SplitBlockRange fromBlock toBlock batchSize hb,
    getLast_SplitBlockRange fromBlock toBlock batchSize hb,
    dropLast_SplitBlockRange fromBlock toBlock batchSize hb,
    ?_, rfl⟩
  intro x
  rw [SplitBlockRange_cons x x 100 (by omega) (le_refl x),
    SplitBlockRange_nil (x + 100) x 100 (by omega)]
  have hmin : min (x + 100 - 1) x = x := by omega
  rw [hmin]

/-- Witness for C7: the split of the empty range `[10, 5]` at batch size 3. -/
theorem claim_C7_split_block_range_witness : SplitBlockRange 10 5 3 = [] :=
  (claim_C7_split_block_range 10 5 3 (by decide)).1 (by decide)

/-- C10: for every `batchSize ≥ 1` the `SplitBlockRange` loop terminates
(some finite fuel completes it), and for every `batchSize ≤ 0` with
`fromBlock ≤ toBlock` it never terminates: no amount of fuel completes the
loop, because `current` never gets past `toBlock`. -/
theorem claim_C10_split_termination (fromBlock toBlock batchSize : Int) :
    (1 ≤ batchSize →
      ∃ fuel l, splitLoop batchSize fuel fromBlock toBlock = some l) ∧
    (batchSize ≤ 0 → fromBlock ≤ toBlock →
      ∀ fuel, splitLoop batchSize fuel fromBlock toBlock = none) := by
  constructor
  · intro hb
    exact ⟨(toBlock - fromBlock + 1).toNat + 1,
      SplitBlockRange fromBlock toBlock batchSize,
      splitLoop_canonical batchSize hb fromBlock toBlock⟩
  · intro hb hle fuel
    induction fuel generalizing fromBlock with
    | zero => rfl
    | succ n ih =>
      have hrec : fromBlock + batchSize ≤ toBlock := by omega
      have := ih (fromBlock + batchSize) hrec
      simp only [splitLoop, hle, if_pos, this]

/-- Witness for C10: batch size 5 terminates on `[10, 20]`; batch size 0
diverges on `[0, 5]`. -/
theorem claim_C10_split_termination_witness :
    (∃ fuel l, splitLoop 5 fuel 10 20 = some l) ∧
    (∀ fuel, splitLoop 0 fuel 0 5 = none) :=
  ⟨(claim_C10_split_termination 10 20 5).1 (by decide),
   fun fuel => (claim_C10_split_termination 0 5 0).2 (by decide) (by decide) fuel⟩

/-- C8: for every filter with non-negative offset and limit, the `has_more`
field `GetTransfers` computes (`offset + len(page) < total`) is true exactly
when `offset + limit < total`, where `total` is `GetCount` under the same
filter — the page is the `LIMIT/OFFSET` window of the matching rows, so its
length is `min limit (total − offset)` and the two conditions coincide. -/
theorem claim_C8_has_more (s : Store) (f : TransferFilter)
    (hoff : 0 ≤ f.offset) (hlim : 0 ≤ f.limit) :
    getTransfersHasMore s f = true ↔ f.offset + f.limit < GetCount s f := by
  unfold getTransfersHasMore GetByFilter GetCount
  simp only [List.length_take, List.length_drop, List.length_mergeSort,
    decide_eq_true_eq]
  omega

/-- Witness for C8: three matching rows, limit 2, offset 0. -/
theorem claim_C8_has_more_witness :
    getTransfersHasMore pageStore pageFilter = true ↔
      pageFilter.offset + pageFilter.limit < GetCount pageStore pageFilter :=
  claim_C8_has_more pageStore pageFilter (by decide) (by decide)

/-- C9: the claim states the cache fingerprint incorporates every filter
field, so requests differing in `from_time` or `to_time` get different keys.
The code diverges: `generateCacheKey` never appends `FromTime` or `ToTime`,
so the two filters `cacheKeyF1` and `cacheKeyF2` — identical except
`fromTime` 100 vs 200 — produce the same fingerprint pre-image, hence the
same SHA-256 cache key, and the second request is served the first one's
cached response. -/
theorem claim_C9_cache_key_misses_time_fields :
    generateCacheKey cacheKeyF1 = generateCacheKey cacheKeyF2 ∧
    cacheKeyF1 ≠ cacheKeyF2 ∧
    cacheKeyF1.fromTime ≠ cacheKeyF2.fromTime := by
  refine ⟨rfl, by decide, by decide⟩

/-- C4 counterexample: on `distinctStore` the program emits `textOrderRes` —
the outer `ORDER BY` binds to the `TEXT` alias and `"7" > "10"`, so the
balance-7 holder is listed first carrying rank 2 before rank 1 — refuting
both the claimed balance-descending order and ranks `1..N` in list order;
and on `tieStore` (equal balances) both tie orders `tieResCB`/`tieResBC` are
valid outputs, refuting the address tie break and stability. -/
theorem claim_C4_ranking_counterexample :
    ValidTopHolders distinctStore "0xtok" 2 textOrderRes ∧
    ¬ tieBreakOrdered textOrderRes ∧
    textOrderRes.map (fun h => h.rank) ≠ List.range' 1 2 ∧
    ValidTopHolders tieStore "0xtok" 2 tieResCB ∧
    ValidTopHolders tieStore "0xtok" 2 tieResBC ∧
    tieResCB ≠ tieResBC := by
  refine ⟨⟨["0xb", "0xc"], [⟨"0xc", 7, 2⟩, ⟨"0xb", 10, 1⟩],
      by decide, by decide, by decide, by decide, by decide⟩,
    by unfold tieBreakOrdered textOrderRes; decide,
    by decide,
    ⟨["0xc", "0xb"], tieResCB, by decide, by decide, by decide, by decide, by decide⟩,
    ⟨["0xb", "0xc"], tieResBC, by decide, by decide, by decide, by decide, by decide⟩,
    by decide⟩

/-- C4 (amended): a full `GetTopHolders` listing (limit ≥ number of positive
holders) contains exactly the positive-balance holders, each once, every row
carrying the holder's signed-sum balance (positive), and the rank values form
exactly the dense set `1..N` — no gap, no duplicate; but the rows are emitted
in descending order of the `TEXT` rendering of balance, not numeric order, so
the ranks are decoupled from list position, ties are not broken by address,
and the listing is not stable. -/
theorem claim_C4_ranking_dense (s : Store) (tok : String) (limit : Nat)
    (res : List HolderRow)
    (hlim : (positiveHolders s tok).length ≤ limit)
    (hvalid : ValidTopHolders s tok limit res) :
    res.length = (positiveHolders s tok).length ∧
    (res.map (fun h => h.rank)).Perm
      (List.range' 1 (positiveHolders s tok).length) ∧
    (res.map (fun h => h.address)).Perm (positiveHolders s tok) ∧
    res.Pairwise (fun x y =>
      ¬ ((toString x.balance).data < (toString y.balance).data)) ∧
    (∀ h ∈ res, h.balance = holderUnionBalance s tok h.address ∧ 0 < h.balance) := by
  obtain ⟨permRank, outRows, hpermR, hsortedR, hpermO, hsortedT, hres⟩ := hvalid
  have hlenR : permRank.length = (positiveHolders s tok).length := hpermR.length_eq
  have hrlen : (rankFrom (holderUnionBalance s tok) 1 permRank).length
      = permRank.length := rankFrom_length (holderUnionBalance s tok) permRank 1
  have hlenO : outRows.length = (positiveHolders s tok).length := by
    rw [hpermO.length_eq, hrlen, hlenR]
  rw [List.take_of_length_le (by omega)] at hres
  subst hres
  refine ⟨hlenO, ?_, ?_, hsortedT, ?_⟩
  · have := (hpermO.map (fun h => h.rank)).trans
      (by rw [rankFrom_map_rank, hlenR])
    exact this
  · have := (hpermO.map (fun h => h.address)).trans
      (by rw [rankFrom_map_address])
    exact this.trans hpermR
  · intro h hmem
    have hmem' : h ∈ rankFrom (holderUnionBalance s tok) 1 permRank :=
      hpermO.mem_iff.mp hmem
    obtain ⟨hbal, haddr⟩ := rankFrom_mem (holderUnionBalance s tok) permRank 1 h hmem'
    have hpos : 0 < holderUnionBalance s tok h.address :=
      positiveHolders_pos s tok h.address (hpermR.mem_iff.mp haddr)
    exact ⟨hbal, by rw [hbal]; exact hpos⟩

/-- Witness for the amended C4 on `distinctStore` with the text-ordered
listing the program emits. -/
theorem claim_C4_ranking_dense_witness :
    textOrderRes.length = (positiveHolders distinctStore "0xtok").length ∧
    (textOrderRes.map (fun h => h.rank)).Perm
      (List.range' 1 (positiveHolders distinctStore "0xtok").length) ∧
    (textOrderRes.map (fun h => h.address)).Perm
      (positiveHolders distinctStore "0xtok") ∧
    textOrderRes.Pairwise (fun x y =>
      ¬ ((toString x.balance).data < (toString y.balance).data)) ∧
    (∀ h ∈ textOrderRes,
      h.balance = holderUnionBalance distinctStore "0xtok" h.address ∧
        0 < h.balance) :=
  claim_C4_ranking_dense distinctStore "0xtok" 2 textOrderRes (by decide)
    ⟨["0xb", "0xc"], [⟨"0xc", 7, 2⟩, ⟨"0xb", 10, 1⟩],
      by decide, by decide, by decide, by decide, by decide⟩

/-- C5 counterexample: on `tieStore` the valid listing `tieResCB` assigns
`0xb` rank 2 (`ROW_NUMBER` makes tied ranks distinct), while
`GetHolderBalance` computes rank `COUNT(strictly greater) + 1 = 1` for `0xb`;
so the two queries disagree on rank when balances tie. -/
theorem claim_C5_consistency_counterexample :
    ValidTopHolders tieStore "0xtok" 2 tieResCB ∧
    (⟨"0xb", 10, 2⟩ : HolderRow) ∈ tieResCB ∧
    holderCaseBalance tieStore "0xtok" "0xb" = 10 ∧
    getHolderRank tieStore "0xtok" "0xb" = 1 ∧
    (∀ h : HolderRow, h ∈ tieResCB → h.address = "0xb" →
      h.rank ≠ getHolderRank tieStore "0xtok" "0xb") := by
  refine ⟨⟨["0xc", "0xb"], tieResCB,
      by decide, by decide, by decide, by decide, by decide⟩,
    by decide, by decide, by decide, by decide⟩

/-- C5 (amended): when the positive holders' balances are pairwise distinct
and the holder has no self-transfer rows in the token, every full
`GetTopHolders` listing contains the holder with exactly the balance and the
rank that `GetHolderBalance` returns. -/
theorem claim_C5_holder_query_consistent (s : Store) (tok holder : String)
    (limit : Nat) (res : List HolderRow)
    (hdist : (positiveHolders s tok).Pairwise
      (fun a b => holderUnionBalance s tok a ≠ holderUnionBalance s tok b))
    (hself : ∀ r ∈ s, r.tokenAddress = tok →
      ¬(r.fromAddress = holder ∧ r.toAddress = holder))
    (hmem : holder ∈ positiveHolders s tok)
    (hlim : (positiveHolders s tok).length ≤ limit)
    (hvalid : ValidTopHolders s tok limit res) :
    (⟨holder, holderCaseBalance s tok holder, getHolderRank s tok holder⟩ : HolderRow)
      ∈ res := by
  obtain ⟨permRank, outRows, hpermR, hsortedR, hpermO, hsortedT, hres⟩ := hvalid
  have hlenR : permRank.length = (positiveHolders s tok).length := hpermR.length_eq
  have hcase : holderCaseBalance s tok holder = holderUnionBalance s tok holder := by
    rw [holderCaseBalance_eq_specBalance_of_no_self s tok holder hself,
      holderUnionBalance_eq_specBalance]
  have hdist' : permRank.Pairwise
      (fun a b => holderUnionBalance s tok a ≠ holderUnionBalance s tok b) :=
    (hpermR.pairwise_iff (fun h => Ne.symm h)).mpr hdist
  have hmem' : holder ∈ permRank := hpermR.mem_iff.mpr hmem
  have hkey := rankFrom_mem_of_sorted (holderUnionBalance s tok) permRank 1
    hsortedR hdist' holder hmem'
  have hfilt : (permRank.filter (fun x =>
        decide (holderUnionBalance s tok holder < holderUnionBalance s tok x))).length
      = ((positiveHolders s tok).filter (fun x =>
        decide (holderUnionBalance s tok holder < holderUnionBalance s tok x))).length :=
    (hpermR.filter _).length_eq
  have hrank : getHolderRank s tok holder
      = 1 + (permRank.filter (fun x =>
        decide (holderUnionBalance s tok holder < holderUnionBalance s tok x))).length := by
    unfold getHolderRank
    rw [hcase, hfilt]
  rw [List.take_of_length_le
    (by rw [hpermO.length_eq, rankFrom_length]; omega)] at hres
  subst hres
  rw [hcase, hrank]
  exact hpermO.mem_iff.mpr hkey

/-- Witness for the amended C5 on `distinctStore` for holder `0xb`: its row
(balance 10, rank 1) is in the text-ordered listing, in second position. -/
theorem claim_C5_holder_query_consistent_witness :
    (⟨"0xb", holderCaseBalance distinctStore "0xtok" "0xb",
      getHolderRank distinctStore "0xtok" "0xb"⟩ : HolderRow) ∈ textOrderRes :=
  claim_C5_holder_query_consistent distinctStore "0xtok" "0xb" 2 textOrderRes
    (by decide) (by decide) (by decide) (by decide)
    ⟨["0xb", "0xc"], [⟨"0xc", 7, 2⟩, ⟨"0xb", 10, 1⟩],
      by decide, by decide, by decide, by decide, by decide⟩

end ChainIndexer
